import Mathlib

/-!
Verification of the ntto / nttoldj N-Triples abbreviation pipeline.

The Go sources are shallowly embedded here.  Go strings are modelled as
`List Char`; the byte-oriented Go string functions (`strings.HasPrefix`,
`strings.Fields`, `strings.Split`, `strings.Replace`, `strings.Trim`,
`strings.TrimSpace`, `strings.Contains`, `strings.HasSuffix`) are translated
to character-list functions below.  `unicode.IsSpace` is modelled on its
Latin-1 fast path (all whitespace characters that occur in N-Triples data).

Functions named with an initial capital come from `common.go` (package ntto);
lower-case ones come from `nttoldj.go` (package main).  The two packages
declare identical `Rule` and `Triple` structures, shared here.
-/

namespace Ntto

/-- Go strings, modelled as lists of characters. -/
abbrev Str := List Char

/-- Literal helper: the characters of a Lean string literal. -/
def chars (s : String) : Str := s.toList

/-- The single-quote character (ASCII 39), used by `SedifyNull` command text. -/
def sq : Char := Char.ofNat 39

/-- `unicode.IsSpace` restricted to Latin-1 (Go's fast path): space, \t, \n,
\v, \f, \r, NEL (U+0085) and NBSP (U+00A0). -/
def isSpace (c : Char) : Bool :=
  c == ' ' || c == '\t' || c == '\n' || c == '\u000B' || c == '\u000C' || c == '\r' ||
  c == '\u0085' || c == '\u00A0'

/-- Go `strings.TrimSpace`: drop leading and trailing whitespace. -/
def trimSpace (s : Str) : Str :=
  ((s.dropWhile isSpace).reverse.dropWhile isSpace).reverse

/-- Go `strings.HasPrefix s p`. -/
def startsWith (s p : Str) : Bool := List.isPrefixOf p s

/-- Go `strings.HasSuffix s p`. -/
def endsWith (s p : Str) : Bool := List.isSuffixOf p s

/-- Go `strings.Contains s sub`: `sub` occurs as a contiguous substring. -/
def containsStr (s sub : Str) : Bool :=
  match s with
  | [] => sub.isEmpty
  | c :: cs => List.isPrefixOf sub (c :: cs) || containsStr cs sub

/-- Go `strings.Trim s cutset`: remove all leading and trailing characters
that occur in `cutset`. -/
def trimChars (s cutset : Str) : Str :=
  ((s.dropWhile (fun c => cutset.contains c)).reverse.dropWhile
    (fun c => cutset.contains c)).reverse

/-- Accumulator loop of `fields` (the accumulator holds the current word,
reversed). -/
def fieldsAux : Str → Str → List Str
  | acc, [] => if acc.isEmpty then [] else [acc.reverse]
  | acc, c :: cs =>
    if isSpace c then
      if acc.isEmpty then fieldsAux [] cs else acc.reverse :: fieldsAux [] cs
    else fieldsAux (c :: acc) cs

/-- Go `strings.Fields`: split around runs of whitespace, no empty words. -/
def fields (s : Str) : List Str := fieldsAux [] s

/-- Fuelled loop of `splitStr`; `fuel ≥ s.length` makes it exact.  Scans `s`
left to right, cutting at each non-overlapping occurrence of `sep`. -/
def splitSeq (sep : Str) : Nat → Str → List Str
  | _, [] => [[]]
  | 0, s => [s]
  | fuel + 1, c :: cs =>
    if startsWith (c :: cs) sep then
      [] :: splitSeq sep fuel (List.drop sep.length (c :: cs))
    else
      match splitSeq sep fuel cs with
      | [] => [[c]]
      | w :: rest => (c :: w) :: rest

/-- Go `strings.Split s sep`.  For empty `sep` Go explodes the string into
single-character strings; otherwise it cuts at each occurrence of `sep`. -/
def splitStr (s sep : Str) : List Str :=
  if sep.isEmpty then s.map (fun c => [c]) else splitSeq sep s.length s

/-- Fuelled loop of `replaceAll`; `fuel ≥ s.length` makes it exact for
non-empty `old`.  Replaces non-overlapping occurrences left to right. -/
def replaceFuel (old new : Str) : Nat → Str → Str
  | _, [] => []
  | 0, s => s
  | fuel + 1, c :: cs =>
    if startsWith (c :: cs) old then
      new ++ replaceFuel old new fuel (List.drop old.length (c :: cs))
    else
      c :: replaceFuel old new fuel cs

/-- Go `strings.Replace s old new -1`: replace all occurrences.  With empty
`old`, Go inserts `new` at every boundary, including both ends. -/
def replaceAll (s old new : Str) : Str :=
  if old.isEmpty then new ++ s.flatMap (fun c => c :: new)
  else replaceFuel old new s.length s

deriving instance DecidableEq for Except

/-- The abbreviation rule record shared by `common.go` and `nttoldj.go`.
`Pre` embeds the Go field `Prefix`; `Shortcut` keeps its name. -/
structure Rule where
  Pre : Str
  Shortcut : Str
deriving DecidableEq

/-- The triple record (the Go `XMLName` field is a serialization annotation
with no data content and is omitted). -/
structure Triple where
  Subject : Str
  Predicate : Str
  Object : Str
deriving DecidableEq

/-- `nttoldj.go` `isURIRef`: starts with `<` and ends with `>`. -/
def isURIRef (s : Str) : Bool := startsWith s ['<'] && endsWith s ['>']

/-- `nttoldj.go` `isLiteral`: starts with a double quote. -/
def isLiteral (s : Str) : Bool := startsWith s ['"']

/-- `nttoldj.go` `isLiteralLanguage`: true when the string has no `@` at all,
otherwise true exactly when it contains the substring `@` ++ `language`. -/
def isLiteralLanguage (s language : Str) : Bool :=
  if !containsStr s ['@'] then true else containsStr s ('@' :: language)

/-- `nttoldj.go` `stripChars`: unembellish a field.  URI refs lose their angle
brackets; literals have everything after the last `@` removed with the
remaining `@`-separated parts concatenated (Go joins `parts[:len-1]` with the
empty string), the same for `^^`, and then surrounding quotes trimmed. -/
def stripChars (s : Str) : Str :=
  if isURIRef s then trimChars s (chars "<>")
  else if isLiteral s then
    let s1 := if containsStr s ['@'] then ((splitStr s ['@']).dropLast).flatten else s
    let s2 :=
      if containsStr s1 (chars "^^") then ((splitStr s1 (chars "^^")).dropLast).flatten
      else s1
    trimChars s2 ['"']
  else s

/-- `nttoldj.go` `applyRules`: for each rule in table order, if the field has
the rule's prefix at its start, replace every occurrence of that prefix with
`shortcut ++ ":"`. -/
def applyRules (s : Str) (rules : List Rule) : Str :=
  match rules with
  | [] => s
  | r :: rs =>
    applyRules (if startsWith s r.Pre then replaceAll s r.Pre (r.Shortcut ++ [':']) else s) rs

/-- The three writers `Convert` can start. -/
inductive OutWriter where
  | json
  | xml
  | tsv
deriving DecidableEq

/-- The startup dispatch of `nttoldj.go` `Convert` (its first `if` chain):
which writer goroutine is started for a format selector, or the
unknown-format error that `Convert` returns before the input file is
opened. -/
def convertStartWriter (format : Str) : Except Str OutWriter :=
  if format = chars "json" then .ok .json
  else if format = chars "xml" then .ok .xml
  else if format = chars "tsv" then .ok .tsv
  else .error (chars "unknown format: " ++ format ++ ['\n'])

/-- Outcome of one `Worker` loop iteration in `nttoldj.go`. -/
inductive WorkerOut where
  | skipped
  | fatal
  | filtered
  | emit (t : Triple)
deriving DecidableEq

/-- The tail of the `Worker` loop body: language filter, then
`stripChars`, then `applyRules`, then emit. -/
def workerFinish (rules : List Rule) (language : Str) (s p o : Str) : WorkerOut :=
  if !language.isEmpty && !isLiteralLanguage o language then .filtered
  else
    .emit ⟨applyRules (stripChars s) rules, applyRules (stripChars p) rules,
      applyRules (stripChars o) rules⟩

/-- One iteration of `nttoldj.go` `Worker` on a line.  The `Bool` component
records whether the "broken input" diagnostic was printed.  A trimmed line
starting with `#` is skipped.  Fewer than 3 words prints the diagnostic and,
in non-ignore mode, exits fatally; in ignore mode execution falls through
with `s`, `p`, `o` left as empty strings (as in the Go source).  With more
than 4 words, the last word is always dropped from the object. -/
def workerStep (rules : List Rule) (language : Str) (ignore : Bool) (line : Str) :
    Bool × WorkerOut :=
  let trimmed := trimSpace line
  if startsWith trimmed ['#'] then (false, .skipped)
  else
    let words := fields trimmed
    if words.length < 3 then
      if !ignore then (true, .fatal)
      else (true, workerFinish rules language [] [] [])
    else if words.length = 4 ∨ words.length = 3 then
      (false, workerFinish rules language (words.getD 0 []) (words.getD 1 []) (words.getD 2 []))
    else
      (false, workerFinish rules language (words.getD 0 []) (words.getD 1 [])
        (List.intercalate [' '] ((words.drop 2).dropLast)))

/-- `common.go` `ParseNTriple`: parse one N-Triples line.  Fewer than 3 words
is an error (Go formats the words into the message; the error payload here is
the word list).  With 3 or 4 words the object is `words[2]`; with more than
4 words the object is the remaining words joined by single spaces, dropping
the last word when the trimmed line ends with `.`.  Each field is then
trimmed of surrounding `<`, `>`, `"`. -/
def ParseNTriple (line : Str) : Except (List Str) Triple :=
  let l := trimSpace line
  let words := fields l
  if words.length < 3 then .error words
  else
    let o :=
      if words.length ≤ 4 then words.getD 2 []
      else if endsWith l ['.'] then List.intercalate [' '] ((words.drop 2).dropLast)
      else List.intercalate [' '] (words.drop 2)
    .ok ⟨trimChars (words.getD 0 []) (chars "<>\""), trimChars (words.getD 1 []) (chars "<>\""),
      trimChars o (chars "<>\"")⟩

/-- A trimmed rule line that `ParseRules` skips: empty, or a `#` or `//`
comment. -/
def ruleSkip (l : Str) : Bool :=
  l.isEmpty || startsWith l ['#'] || startsWith l ['/', '/']

/-- A trimmed rule line that makes `ParseRules` fail: not skipped, fewer than
2 whitespace-separated fields. -/
def ruleMalformed (l : Str) : Bool := !ruleSkip l && (fields l).length < 2

/-- The rule a valid trimmed line contributes: `fields[0]` is the shortcut,
`fields[1]` the prefix. -/
def ruleOf (l : Str) : Rule := ⟨(fields l).getD 1 [], (fields l).getD 0 []⟩

/-- Loop of `common.go` `ParseRules` over the split lines.  On the first
malformed line it records the error and breaks; rules gathered before the
error are still returned, lines after it are not examined. -/
def parseRulesGo : List Str → List Rule × Option Str
  | [] => ([], none)
  | ln :: ls =>
    let t := trimSpace ln
    if ruleSkip t then parseRulesGo ls
    else if (fields t).length < 2 then ([], some (chars "Broken rule: " ++ t))
    else
      let rest := parseRulesGo ls
      (ruleOf t :: rest.1, rest.2)

/-- `common.go` `ParseRules`: split on newlines and run the loop. -/
def ParseRules (s : Str) : List Rule × Option Str := parseRulesGo (splitStr s ['\n'])

/-- `common.go` `PartitionRules`: distribute rule `i` to partition
`i % count` after clamping `count` to the number of rules.  When the clamped
count is zero but rules remain, the Go code divides by zero (a runtime
panic), modelled as `none`. -/
def PartitionRules (rules : List Rule) (count : Nat) : Option (List (List Rule)) :=
  let c := min rules.length count
  if rules.isEmpty then some []
  else if c = 0 then none
  else some ((List.range c).map (fun j => ((rules.enum.filter (fun p => p.1 % c = j)).map Prod.snd)))

/-- `common.go` `SedifyNull`: render the rule partitions as a pipeline of
perl substitution commands.  A rule whose shortcut equals `null` becomes a
deletion `s@prefix@@g`; any other rule becomes `s@prefix@shortcut:@g`.  Only
the first stage reads from `infile` when one is given. -/
def SedifyNull (rules : List Rule) (p : Nat) (infile null : Str) : Option Str :=
  (PartitionRules rules p).map (fun partitions =>
    List.intercalate (chars " | ") (partitions.enum.map (fun pr =>
      let cmds := List.intercalate (chars "; ") (pr.2.map (fun rule =>
        if rule.Shortcut = null then chars "s@" ++ rule.Pre ++ chars "@@g"
        else chars "s@" ++ rule.Pre ++ ['@'] ++ rule.Shortcut ++ chars ":@g"))
      if pr.1 = 0 && !infile.isEmpty then
        chars "LANG=C perl -lnpe " ++ [sq] ++ cmds ++ [sq] ++ chars " < " ++ [sq] ++ infile ++ [sq]
      else chars "LANG=C perl -lnpe " ++ [sq] ++ cmds ++ [sq])))

/-- Formalization of the claim's notion "the literal carries an `@lang`
tag": the string is a literal and an `@` occurs after its last double
quote. -/
def specHasLangTag (s : Str) : Bool :=
  isLiteral s && ((s.reverse.takeWhile (fun c => c != '"')).reverse).contains '@'

/-- Spec-following variant of `stripChars` for comparison: it deletes only
the `@...` suffix (everything from the last `@` on) and only the `^^...`
suffix, keeping earlier separators, before stripping quotes. -/
def stripCharsClaim (s : Str) : Str :=
  if isURIRef s then trimChars s (chars "<>")
  else if isLiteral s then
    let s1 :=
      if containsStr s ['@'] then List.intercalate ['@'] ((splitStr s ['@']).dropLast) else s
    let s2 :=
      if containsStr s1 (chars "^^") then
        List.intercalate (chars "^^") ((splitStr s1 (chars "^^")).dropLast)
      else s1
    trimChars s2 ['"']
  else s

/-! ### Helper lemmas -/

theorem startsWith_iff (s p : Str) : startsWith s p = true ↔ p <+: s := by
  simp [startsWith, List.isPrefixOf_iff_prefix]

theorem containsStr_iff (s sub : Str) : containsStr s sub = true ↔ sub <:+: s := by
  induction s with
  | nil =>
    simp [containsStr, List.isEmpty_iff, List.infix_nil]
  | cons c cs ih =>
    simp [containsStr, Bool.or_eq_true, List.isPrefixOf_iff_prefix, ih, List.infix_cons_iff]

theorem replaceAll_starts (s old new : Str) (h : startsWith s old = true) :
    ∃ t, replaceAll s old new = new ++ t := by
  unfold replaceAll
  by_cases hol : old.isEmpty = true
  · rw [if_pos hol]
    exact ⟨_, rfl⟩
  · rw [if_neg hol]
    cases s with
    | nil =>
      exfalso
      have : old <+: [] := (startsWith_iff _ _).mp h
      have : old = [] := List.prefix_nil.mp this
      simp [this] at hol
    | cons c cs =>
      simp only [List.length_cons, replaceFuel, h, if_true]
      exact ⟨_, rfl⟩

theorem applyRules_append (s : Str) (l₁ l₂ : List Rule) :
    applyRules s (l₁ ++ l₂) = applyRules (applyRules s l₁) l₂ := by
  induction l₁ generalizing s with
  | nil => rfl
  | cons r rs ih =>
    simp only [List.cons_append, applyRules]
    exact ih _

theorem applyRules_of_noFire (t : Str) (rules : List Rule)
    (h : ∀ r ∈ rules, startsWith t r.Pre = false) : applyRules t rules = t := by
  induction rules with
  | nil => rfl
  | cons r rs ih =>
    have hr := h r (List.mem_cons_self r rs)
    simp only [applyRules, hr, Bool.false_eq_true, if_false]
    exact ih (fun r' hr' => h r' (List.mem_cons_of_mem _ hr'))

theorem applyRules_starts_or_id (rules : List Rule) (s : Str) :
    (∃ r ∈ rules, (r.Shortcut ++ [':']) <+: applyRules s rules) ∨
      (applyRules s rules = s ∧ ∀ r ∈ rules, startsWith s r.Pre = false) := by
  induction rules using List.reverseRecOn with
  | nil => exact Or.inr ⟨rfl, by simp⟩
  | append_singleton rs r ih =>
    rw [applyRules_append]
    cases hfire : startsWith (applyRules s rs) r.Pre with
    | true =>
      left
      obtain ⟨u, hu⟩ := replaceAll_starts (applyRules s rs) r.Pre (r.Shortcut ++ [':']) hfire
      refine ⟨r, by simp, ?_⟩
      simp only [applyRules, hfire, if_true, hu]
      exact List.prefix_append _ _
    | false =>
      rcases ih with ⟨rk, hmem, hpre⟩ | ⟨heq, hall⟩
      · left
        refine ⟨rk, List.mem_append_left _ hmem, ?_⟩
        simpa only [applyRules, hfire, Bool.false_eq_true, if_false] using hpre
      · right
        have hfire' : startsWith s r.Pre = false := by
          rw [heq] at hfire
          exact hfire
        constructor
        · simp only [applyRules, heq, hfire', Bool.false_eq_true, if_false]
        · intro r' hr'
          rcases List.mem_append.mp hr' with h1 | h2
          · exact hall r' h1
          · have hr : r' = r := by simpa using h2
            rw [hr, ← heq]
            exact hfire

/-! ### Claims -/

/-- C1: `applyRules` processes rules in table order; a rule fires exactly when
its prefix starts the current field value, and firing replaces all occurrences
of the prefix by `shortcut ++ ":"`.  Consequently for rules
`{a: "http://x/y/", b: "http://x/"}` in that order, `"http://x/y/Foo"`
abbreviates to `"a:Foo"`, and with the table order swapped the result is
`"b:y/Foo"`. -/
theorem applyRules_order_spec :
    (∀ (s : Str) (r : Rule) (rs : List Rule),
      applyRules s (r :: rs) =
        applyRules (if startsWith s r.Pre then replaceAll s r.Pre (r.Shortcut ++ [':']) else s)
          rs) ∧
    (∀ s : Str, applyRules s [] = s) ∧
    applyRules (chars "http://x/y/Foo")
      [⟨chars "http://x/y/", chars "a"⟩, ⟨chars "http://x/", chars "b"⟩] = chars "a:Foo" ∧
    applyRules (chars "http://x/y/Foo")
      [⟨chars "http://x/", chars "b"⟩, ⟨chars "http://x/y/", chars "a"⟩] = chars "b:y/Foo" :=
  ⟨fun _ _ _ => rfl, fun _ => rfl, by decide, by decide⟩

/-- C9: when no rule's prefix is prefix-comparable with any rule's
`shortcut ++ ":"` (neither is a string-prefix of the other — the claim's
"no collision" precondition), `applyRules` is idempotent:
applying the table twice equals applying it once. -/
theorem applyRules_idem (s : Str) (rules : List Rule)
    (hP : ∀ r ∈ rules, ∀ r' ∈ rules,
      startsWith (r.Shortcut ++ [':']) r'.Pre = false ∧
      startsWith r'.Pre (r.Shortcut ++ [':']) = false) :
    applyRules (applyRules s rules) rules = applyRules s rules := by
  apply applyRules_of_noFire
  intro r' hr'
  rcases applyRules_starts_or_id rules s with ⟨rk, hk, hpre⟩ | ⟨heq, hall⟩
  · cases hsw : startsWith (applyRules s rules) r'.Pre with
    | false => rfl
    | true =>
      exfalso
      have h1 : r'.Pre <+: applyRules s rules := (startsWith_iff _ _).mp hsw
      rcases List.prefix_or_prefix_of_prefix h1 hpre with hc | hc
      · have hfalse := (hP rk hk r' hr').1
        rw [(startsWith_iff _ _).mpr hc] at hfalse
        exact Bool.true_eq_false.mp hfalse
      · have hfalse := (hP rk hk r' hr').2
        rw [(startsWith_iff _ _).mpr hc] at hfalse
        exact Bool.true_eq_false.mp hfalse
  · rw [heq]
    exact hall r' hr'

/-- Witness for C9 at a concrete table and field. -/
theorem applyRules_idem_witness :
    (∀ r ∈ ([⟨chars "http://x/", chars "a"⟩] : List Rule),
      ∀ r' ∈ ([⟨chars "http://x/", chars "a"⟩] : List Rule),
      startsWith (r.Shortcut ++ [':']) r'.Pre = false ∧
      startsWith r'.Pre (r.Shortcut ++ [':']) = false) ∧
    applyRules (applyRules (chars "http://x/Foo") [⟨chars "http://x/", chars "a"⟩])
        [⟨chars "http://x/", chars "a"⟩] =
      applyRules (chars "http://x/Foo") [⟨chars "http://x/", chars "a"⟩] :=
  ⟨by decide, applyRules_idem (chars "http://x/Foo") [⟨chars "http://x/", chars "a"⟩] (by decide)⟩

/-- C2: for a line with more than 4 whitespace-separated words, `ParseNTriple`
returns subject = word 0, predicate = word 1, and object = the remaining words
joined by single spaces, dropping the trailing terminator word exactly when
the trimmed line ends with `"."`; each field is then trimmed of surrounding
`<`, `>`, `"`.  In particular `<a> <b> "the deep blue c" .` parses to
subject `a`, predicate `b`, object `the deep blue c`. -/
theorem parseNTriple_manyWords_spec :
    (∀ line : Str, 4 < (fields (trimSpace line)).length →
      ParseNTriple line = .ok
        ⟨trimChars ((fields (trimSpace line)).getD 0 []) (chars "<>\""),
         trimChars ((fields (trimSpace line)).getD 1 []) (chars "<>\""),
         trimChars
           (if endsWith (trimSpace line) ['.'] then
              List.intercalate [' '] (((fields (trimSpace line)).drop 2).dropLast)
            else List.intercalate [' '] ((fields (trimSpace line)).drop 2))
           (chars "<>\"")⟩) ∧
    ParseNTriple (chars "<a> <b> \"the deep blue c\" .") =
      .ok ⟨chars "a", chars "b", chars "the deep blue c"⟩ := by
  constructor
  · intro line h
    have h3 : ¬ ((fields (trimSpace line)).length < 3) := by omega
    have h4 : ¬ ((fields (trimSpace line)).length ≤ 4) := by omega
    simp only [ParseNTriple, h3, if_false, h4]
  · decide

/-- Witness for C2 at the claim's example line. -/
theorem parseNTriple_manyWords_spec_witness :
    4 < (fields (trimSpace (chars "<a> <b> \"the deep blue c\" ."))).length ∧
    ParseNTriple (chars "<a> <b> \"the deep blue c\" .") =
      .ok ⟨chars "a", chars "b", chars "the deep blue c"⟩ :=
  ⟨by decide, by
    rw [parseNTriple_manyWords_spec.1 (chars "<a> <b> \"the deep blue c\" .") (by decide)]
    decide⟩

theorem parseRulesGo_ok (ls : List Str)
    (h : ∀ l ∈ ls, ruleMalformed (trimSpace l) = false) :
    parseRulesGo ls =
      (((ls.map trimSpace).filter (fun l => !ruleSkip l)).map ruleOf, none) := by
  induction ls with
  | nil => rfl
  | cons ln ls ih =>
    have hl := h ln (List.mem_cons_self ln ls)
    have ihl := ih (fun l' hl' => h l' (List.mem_cons_of_mem _ hl'))
    cases hs : ruleSkip (trimSpace ln) with
    | true =>
      simp only [parseRulesGo, hs, if_true, List.map_cons, List.filter_cons, Bool.not_true,
        Bool.false_eq_true, if_false, ihl]
    | false =>
      have hlen : ¬ ((fields (trimSpace ln)).length < 2) := by
        intro hc
        simp [ruleMalformed, hs, hc] at hl
      simp only [parseRulesGo, hs, Bool.false_eq_true, if_false, hlen, List.map_cons,
        List.filter_cons, Bool.not_false, if_true, List.map_cons, ihl]

theorem parseRulesGo_err (ls₁ : List Str) (l : Str) (ls₂ : List Str)
    (h1 : ∀ l' ∈ ls₁, ruleMalformed (trimSpace l') = false)
    (h2 : ruleMalformed (trimSpace l) = true) :
    parseRulesGo (ls₁ ++ l :: ls₂) =
      (((ls₁.map trimSpace).filter (fun x => !ruleSkip x)).map ruleOf,
        some (chars "Broken rule: " ++ trimSpace l)) := by
  induction ls₁ with
  | nil =>
    have hs : ruleSkip (trimSpace l) = false := by
      cases hv : ruleSkip (trimSpace l) with
      | false => rfl
      | true =>
        exfalso
        simp [ruleMalformed, hv] at h2
    have hlen : (fields (trimSpace l)).length < 2 := by
      simpa [ruleMalformed, hs] using h2
    simp [parseRulesGo, hs, hlen]
  | cons ln ls ih =>
    have hl := h1 ln (List.mem_cons_self ln ls)
    have ihl := ih (fun l' hl' => h1 l' (List.mem_cons_of_mem _ hl'))
    cases hs : ruleSkip (trimSpace ln) with
    | true =>
      simp only [List.cons_append, parseRulesGo, hs, if_true, List.map_cons, List.filter_cons,
        Bool.not_true, Bool.false_eq_true, if_false, List.append_eq, ihl]
    | false =>
      have hlen : ¬ ((fields (trimSpace ln)).length < 2) := by
        intro hc
        simp [ruleMalformed, hs, hc] at hl
      simp only [List.cons_append, parseRulesGo, hs, Bool.false_eq_true, if_false, hlen,
        List.map_cons, List.filter_cons, Bool.not_false, if_true, List.append_eq, ihl]

/-- C3: `ParseRules` skips blank, `#` and `//` lines; a well-formed input
yields exactly the valid rules in file order with no error
(`fields[0]` = shortcut, `fields[1]` = prefix); the first line with fewer
than 2 fields produces an error naming that line, and parsing stops there
(lines after it are not examined). -/
theorem parseRules_spec :
    (∀ text : Str,
      (∀ l ∈ splitStr text ['\n'], ruleMalformed (trimSpace l) = false) →
      ParseRules text =
        ((((splitStr text ['\n']).map trimSpace).filter (fun l => !ruleSkip l)).map ruleOf,
          none)) ∧
    (∀ (text : Str) (ls₁ : List Str) (l : Str) (ls₂ : List Str),
      splitStr text ['\n'] = ls₁ ++ l :: ls₂ →
      (∀ l' ∈ ls₁, ruleMalformed (trimSpace l') = false) →
      ruleMalformed (trimSpace l) = true →
      ParseRules text =
        (((ls₁.map trimSpace).filter (fun x => !ruleSkip x)).map ruleOf,
          some (chars "Broken rule: " ++ trimSpace l))) := by
  constructor
  · intro text h
    exact parseRulesGo_ok _ h
  · intro text ls₁ l ls₂ hsplit h1 h2
    unfold ParseRules
    rw [hsplit]
    exact parseRulesGo_err ls₁ l ls₂ h1 h2

/-- Witness for C3: a clean rule file with comments and blanks, and a file
with one malformed line. -/
theorem parseRules_spec_witness :
    ((∀ l ∈ splitStr (chars "a hello\n# note\n\nb world") ['\n'],
        ruleMalformed (trimSpace l) = false) ∧
      ParseRules (chars "a hello\n# note\n\nb world") =
        ([⟨chars "hello", chars "a"⟩, ⟨chars "world", chars "b"⟩], none)) ∧
    (splitStr (chars "a hello\nbad\nb world") ['\n'] =
        [chars "a hello"] ++ chars "bad" :: [chars "b world"] ∧
      ruleMalformed (trimSpace (chars "bad")) = true ∧
      ParseRules (chars "a hello\nbad\nb world") =
        ([⟨chars "hello", chars "a"⟩], some (chars "Broken rule: bad"))) := by
  refine ⟨⟨by decide, ?_⟩, by decide, by decide, ?_⟩
  · rw [parseRules_spec.1 (chars "a hello\n# note\n\nb world") (by decide)]
    decide
  · rw [parseRules_spec.2 (chars "a hello\nbad\nb world") [chars "a hello"] (chars "bad")
      [chars "b world"] (by decide) (by decide) (by decide)]
    decide

/-- C5 counterexample: the object `"user@example.com"` is a literal that
carries no `@lang` tag at all (no `@` after its closing quote), yet with
filter `en` the worker drops the triple entirely, because the code only
checks for the substring `@en` anywhere in the raw object. -/
theorem languageFilter_noTag_dropped_cex :
    isLiteral (chars "\"user@example.com\"") = true ∧
    specHasLangTag (chars "\"user@example.com\"") = false ∧
    workerStep [] (chars "en") false (chars "<a> <b> \"user@example.com\" .") =
      (false, .filtered) :=
  ⟨by decide, by decide, by decide⟩

/-- C5 (amended): with a language filter, an object is passed through iff it
contains no `@` character at all, or contains the substring `@` ++ filter
anywhere; in particular `"atom"@fr` with filter `en` is dropped while
`"atom"@en` and `"atom"` are kept. -/
theorem languageFilter_contains_spec :
    (∀ o language : Str,
      isLiteralLanguage o language = true ↔ (¬ '@' ∈ o ∨ ('@' :: language) <:+: o)) ∧
    workerStep [] (chars "en") false (chars "<a> <b> \"atom\"@fr .") = (false, .filtered) ∧
    workerStep [] (chars "en") false (chars "<a> <b> \"atom\"@en .") =
      (false, .emit ⟨chars "a", chars "b", chars "atom"⟩) ∧
    workerStep [] (chars "en") false (chars "<a> <b> \"atom\" .") =
      (false, .emit ⟨chars "a", chars "b", chars "atom"⟩) := by
  refine ⟨?_, by decide, by decide, by decide⟩
  intro o language
  cases hc : containsStr o ['@'] with
  | true =>
    have hmem : '@' ∈ o := by
      have hinf : ['@'] <:+: o := (containsStr_iff o ['@']).mp hc
      exact hinf.subset (List.mem_singleton.mpr rfl)
    simp [isLiteralLanguage, hc, containsStr_iff, hmem]
  | false =>
    have hmem : ¬ '@' ∈ o := by
      intro hm
      obtain ⟨s1, t1, hst⟩ := List.append_of_mem hm
      have : containsStr o ['@'] = true := by
        refine (containsStr_iff o ['@']).mpr ?_
        exact ⟨s1, t1, by simp [hst]⟩
      simp [this] at hc
    simp [isLiteralLanguage, hc, hmem]

/-- C6 counterexample: the in-process abbreviator `applyRules` has no
null-marker handling — a rule whose shortcut is the default null token
`<NULL>` inserts `<NULL>:` like any other shortcut instead of deleting the
prefix, so the claimed result `Foo` is not produced. -/
theorem applyRules_nullMarker_cex :
    applyRules (chars "http://x/Foo") [⟨chars "http://x/", chars "<NULL>"⟩] =
      chars "<NULL>:Foo" ∧
    chars "<NULL>:Foo" ≠ chars "Foo" :=
  ⟨by decide, by decide⟩

/-- C6 (amended): the null/delete marker is honoured by the external-command
generator `SedifyNull`: a rule whose shortcut equals the null token yields the
deletion substitution `s@prefix@@g` with no replacement token, while any
other rule yields `s@prefix@shortcut:@g`; interpreting the deletion as
replacement by the empty string turns `http://x/Foo` into `Foo`.  The
in-process `applyRules` performs no null handling. -/
theorem sedifyNull_nullMarker_spec :
    (∀ pre null : Str,
      SedifyNull [⟨pre, null⟩] 1 [] null =
        some (chars "LANG=C perl -lnpe " ++ [sq] ++ (chars "s@" ++ pre ++ chars "@@g") ++ [sq])) ∧
    (∀ pre sc null : Str, sc ≠ null →
      SedifyNull [⟨pre, sc⟩] 1 [] null =
        some (chars "LANG=C perl -lnpe " ++ [sq] ++
          (chars "s@" ++ pre ++ ['@'] ++ sc ++ chars ":@g") ++ [sq])) ∧
    replaceAll (chars "http://x/Foo") (chars "http://x/") [] = chars "Foo" := by
  refine ⟨?_, ?_, by decide⟩
  · intro pre null
    simp [SedifyNull, PartitionRules, List.enum, List.enumFrom, List.range_succ,
      List.intercalate, List.intersperse]
  · intro pre sc null h
    simp [SedifyNull, PartitionRules, List.enum, List.enumFrom, List.range_succ,
      List.intercalate, List.intersperse, h]

/-- Witness for C6 (amended) at the claim's prefix with default null token. -/
theorem sedifyNull_nullMarker_spec_witness :
    (chars "a" ≠ chars "<NULL>") ∧
    SedifyNull [⟨chars "http://x/", chars "a"⟩] 1 [] (chars "<NULL>") =
      some (chars "LANG=C perl -lnpe " ++ [sq] ++
        (chars "s@" ++ chars "http://x/" ++ ['@'] ++ chars "a" ++ chars ":@g") ++ [sq]) :=
  ⟨by decide,
    sedifyNull_nullMarker_spec.2.1 (chars "http://x/") (chars "a") (chars "<NULL>") (by decide)⟩

/-- C7 counterexample: a line that is empty after trimming is not skipped by
the worker — it takes the broken-input path (diagnostic printed and, in
strict mode, fatal exit) instead of producing "no Triple and no error". -/
theorem worker_emptyLine_cex :
    workerStep [] [] false (chars "   ") = (true, .fatal) ∧
    ((true, WorkerOut.fatal) : Bool × WorkerOut) ≠ (false, .skipped) :=
  ⟨by decide, by decide⟩

/-- C7 (amended): a line starting with `#` after trimming is skipped entirely
(no Triple, no error); a non-comment line with fewer than 3 words — which
includes every line that is empty after trimming — prints the broken-input
diagnostic, fatally in non-ignore mode. -/
theorem worker_skip_and_broken_spec :
    ∀ (rules : List Rule) (language : Str) (ignore : Bool) (line : Str),
      (startsWith (trimSpace line) ['#'] = true →
        workerStep rules language ignore line = (false, .skipped)) ∧
      (startsWith (trimSpace line) ['#'] = false →
        (fields (trimSpace line)).length < 3 →
        (workerStep rules language ignore line).1 = true ∧
          (ignore = false → (workerStep rules language ignore line).2 = .fatal)) := by
  intro rules language ignore line
  constructor
  · intro h
    simp [workerStep, h]
  · intro h hlen
    constructor
    · cases ignore <;> simp [workerStep, h, hlen]
    · intro hig
      subst hig
      simp [workerStep, h, hlen]

/-- Witness for C7 (amended) on a comment line and on an empty line. -/
theorem worker_skip_and_broken_spec_witness :
    (startsWith (trimSpace (chars "# note")) ['#'] = true ∧
      workerStep [] [] false (chars "# note") = (false, .skipped)) ∧
    (startsWith (trimSpace (chars "")) ['#'] = false ∧
      (fields (trimSpace (chars ""))).length < 3 ∧
      (workerStep [] [] false (chars "")).1 = true ∧
      (workerStep [] [] false (chars "")).2 = .fatal) :=
  ⟨⟨by decide, (worker_skip_and_broken_spec [] [] false (chars "# note")).1 (by decide)⟩,
    ⟨by decide, by decide,
      ((worker_skip_and_broken_spec [] [] false (chars "")).2 (by decide) (by decide)).1,
      ((worker_skip_and_broken_spec [] [] false (chars "")).2 (by decide) (by decide)).2 rfl⟩⟩

/-- C8 counterexample: the format selector `nt` is not accepted — `Convert`
returns the unknown-format error for it instead of starting a writer. -/
theorem convert_nt_format_cex :
    convertStartWriter (chars "nt") = .error (chars "unknown format: nt\n") := by
  decide

/-- C8 (amended): the pipeline accepts exactly the selectors `json`, `xml`
and `tsv`, starting the corresponding writer; every other selector
(including `nt`) yields the unknown-format error, returned before the input
file is opened. -/
theorem convert_format_dispatch_spec :
    convertStartWriter (chars "json") = .ok .json ∧
    convertStartWriter (chars "xml") = .ok .xml ∧
    convertStartWriter (chars "tsv") = .ok .tsv ∧
    (∀ format : Str,
      format ≠ chars "json" → format ≠ chars "xml" → format ≠ chars "tsv" →
      convertStartWriter format = .error (chars "unknown format: " ++ format ++ ['\n'])) := by
  refine ⟨by decide, by decide, by decide, ?_⟩
  intro f h1 h2 h3
  simp [convertStartWriter, h1, h2, h3]

/-- Witness for C8 (amended) at the selector `csv`. -/
theorem convert_format_dispatch_spec_witness :
    (chars "csv" ≠ chars "json" ∧ chars "csv" ≠ chars "xml" ∧ chars "csv" ≠ chars "tsv") ∧
    convertStartWriter (chars "csv") =
      .error (chars "unknown format: " ++ chars "csv" ++ ['\n']) :=
  ⟨⟨by decide, by decide, by decide⟩,
    convert_format_dispatch_spec.2.2.2 (chars "csv") (by decide) (by decide) (by decide)⟩

theorem flatten_dropLast_eq_intercalate (sep : Str) (parts : List Str)
    (h : parts.length ≤ 2) :
    (parts.dropLast).flatten = List.intercalate sep parts.dropLast := by
  match parts with
  | [] => rfl
  | [a] => rfl
  | [a, b] => simp [List.intercalate, List.intersperse]
  | a :: b :: c :: rest => simp at h

/-- C10 counterexample: on the literal `"a@b"@en` the code does not merely
delete the `@en` language-tag suffix — it splits on every `@` and
concatenates, deleting the interior `@` as well: `stripChars` yields `ab`
where suffix-deletion (then quote-stripping) would yield `a@b`. -/
theorem stripChars_multiAt_cex :
    stripChars (chars "\"a@b\"@en") = chars "ab" ∧
    stripCharsClaim (chars "\"a@b\"@en") = chars "a@b" ∧
    stripChars (chars "\"a@b\"@en") ≠ stripCharsClaim (chars "\"a@b\"@en") :=
  ⟨by decide, by decide, by decide⟩

/-- C10 (amended): `stripChars` trims all surrounding angle brackets from a
`<...>` URI ref and leaves non-URI non-literal strings unchanged; for a
literal it drops the final `@`-separated segment and concatenates the earlier
segments (removing interior `@`s too), then does the same for `^^`, then
strips surrounding quotes — which agrees with plain suffix-deletion whenever
the string has at most one `@` and at most one `^^`; `"atom"@en` becomes
`atom`. -/
theorem stripChars_spec :
    stripChars (chars "\"atom\"@en") = chars "atom" ∧
    (∀ s : Str, isURIRef s = true → stripChars s = trimChars s (chars "<>")) ∧
    (∀ s : Str, isURIRef s = false → isLiteral s = false → stripChars s = s) ∧
    (∀ s : Str, isURIRef s = false → isLiteral s = true →
      (splitStr s ['@']).length ≤ 2 →
      (splitStr (if containsStr s ['@'] then ((splitStr s ['@']).dropLast).flatten else s)
          (chars "^^")).length ≤ 2 →
      stripChars s = stripCharsClaim s) := by
  refine ⟨by decide, ?_, ?_, ?_⟩
  · intro s h
    simp [stripChars, h]
  · intro s h1 h2
    simp [stripChars, h1, h2]
  · intro s h1 h2 hat hhat
    rw [stripChars, stripCharsClaim]
    simp only [h1, Bool.false_eq_true, if_false, h2, if_true]
    rw [flatten_dropLast_eq_intercalate ['@'] _ hat] at hhat ⊢
    rw [flatten_dropLast_eq_intercalate (chars "^^") _ hhat]

/-- Witness for C10 (amended) on a URI ref, a plain token and the claim's
example literal. -/
theorem stripChars_spec_witness :
    (isURIRef (chars "<u>") = true ∧ stripChars (chars "<u>") = chars "u") ∧
    (isURIRef (chars "x") = false ∧ isLiteral (chars "x") = false ∧
      stripChars (chars "x") = chars "x") ∧
    (isURIRef (chars "\"atom\"@en") = false ∧ isLiteral (chars "\"atom\"@en") = true ∧
      (splitStr (chars "\"atom\"@en") ['@']).length ≤ 2 ∧
      stripChars (chars "\"atom\"@en") = stripCharsClaim (chars "\"atom\"@en")) := by
  refine ⟨⟨by decide, ?_⟩, ⟨by decide, by decide, ?_⟩, ⟨by decide, by decide, by decide, ?_⟩⟩
  · rw [stripChars_spec.2.1 (chars "<u>") (by decide)]
    decide
  · exact stripChars_spec.2.2.1 (chars "x") (by decide) (by decide)
  · exact stripChars_spec.2.2.2 (chars "\"atom\"@en") (by decide) (by decide) (by decide)
      (by decide)

end Ntto

